import Mathlib

/-
Verification of the Discord markdown formatter (escaping subsystem, escape
fixer, mention pill converter, Matrix HTML entry point).

Strings are modelled as `List Char` (Go strings are sequences of runes for
every operation used here; none of the verified properties depend on byte
offsets).  Go regular expressions are embedded as executable scan functions
with Go's leftmost-first, greedy semantics, specialised to the concrete
patterns appearing in the source.
-/

def ofStr (s : String) : List Char := s.data

/-- The escape-token set of `discordMarkdownEscaper`:
backslash, underscore, asterisk, tilde, backtick, pipe, angle bracket. -/
def isEscapeToken (c : Char) : Bool :=
  c == '\\' || c == '_' || c == '*' || c == '~' || c == '`' || c == '|' || c == '<'

/-- One replacement step of the `strings.NewReplacer` pairs: an escape token
becomes backslash + itself, anything else is kept. -/
def escapeChar (c : Char) : List Char :=
  if isEscapeToken c then ['\\', c] else [c]

/-- Embedding of `discordMarkdownEscaper.Replace`: the replacer's patterns are all single
characters, so one left-to-right pass maps each character independently. -/
def discordMarkdownEscaper (s : List Char) : List Char :=
  s.flatMap escapeChar

/-- Unicode space-separator category `Zs` (the code points matched by
Go's `\\p{Zs}`): space, no-break space, Ogham space mark, the en-quad
through hair-space block, narrow no-break space, medium mathematical
space, and ideographic space. -/
def isZs (c : Char) : Bool :=
  c == ' ' || c == '\u00A0' || c == '\u1680' ||
  (0x2000 ≤ c.toNat && c.toNat ≤ 0x200A) ||
  c == '\u202F' || c == '\u205F' || c == '\u3000'

/-- Character class excluding an angle bracket, `Zs` characters and U+FEFF:
the starred class of `discordLinkRegex`. -/
def isStarChar (c : Char) : Bool :=
  !(c == '<' || isZs c || c == '\uFEFF')

/-- Character class for the last character of a `discordLinkRegex` match:
not a double quote, apostrophe, closing parenthesis, comma, period, colon,
semicolon, closing square bracket, `Zs` character, or U+FEFF. -/
def isFinalChar (c : Char) : Bool :=
  !(c == '\u0022' || c == '\u0027' || c == ')' || c == ',' || c == '.' ||
    c == ':' || c == ';' || c == ']' || isZs c || c == '\uFEFF')

/-- The literal `https?://` part of `discordLinkRegex`: greedy `s?` tries the
longer scheme first.  Returns the number of characters consumed. -/
def schemeLen (l : List Char) : Option Nat :=
  if List.take 8 l = ofStr "https://" then some 8
  else if List.take 7 l = ofStr "http://" then some 7
  else none

/-- Length of the maximal run of `[^<\p{Zs}\x{feff}]` characters. -/
def starRun : List Char → Nat
  | [] => 0
  | c :: rest => if isStarChar c then starRun rest + 1 else 0

/-- Greedy match length of the starred class followed by the final class
at the head of `l`: the star consumes as much as possible and backs off
until the final character class matches. -/
def matchLen (l : List Char) : Option Nat :=
  (List.range (starRun l + 1)).reverse.findSome? fun n =>
    match l[n]? with
    | some c => if isFinalChar c then some (n + 1) else none
    | none => none

/-- Embedding of `discordLinkRegex.FindAllStringIndex`, fuelled: scan left to right, at
each position try `https?://` then the greedy tail; on a match, record its
half-open index interval and resume after it.  One unit of fuel is spent per
character, which suffices because every step consumes at least one. -/
def findAllFromF : Nat → List Char → Nat → List (Nat × Nat)
  | 0, _, _ => []
  | _ + 1, [], _ => []
  | fuel + 1, c :: rest, i =>
    match schemeLen (c :: rest) with
    | some sl =>
      match matchLen (List.drop sl (c :: rest)) with
      | some ml =>
          (i, i + sl + ml) :: findAllFromF fuel (List.drop (sl + ml - 1) rest) (i + sl + ml)
      | none => findAllFromF fuel rest (i + 1)
    | none => findAllFromF fuel rest (i + 1)

/-- All matches of `discordLinkRegex` in `l`, indices offset by `i`. -/
def findAllFrom (l : List Char) (i : Nat) : List (Nat × Nat) :=
  findAllFromF l.length l i

/-- The splicing loop of `escapeDiscordMarkdown`: escape the gap before each
match, copy the match verbatim, and escape the remainder after the last
match.  `offset` is the absolute position reached so far. -/
def spliceEscapes (s : List Char) : List (Nat × Nat) → Nat → List Char
  | [], offset => discordMarkdownEscaper (List.drop offset s)
  | (st, en) :: ms, offset =>
      discordMarkdownEscaper (List.take (st - offset) (List.drop offset s))
        ++ List.take (en - st) (List.drop st s)
        ++ spliceEscapes s ms en

/-- Embedding of `escapeDiscordMarkdown`: if the link regex finds no matches, escape the
whole string, otherwise splice escaped gaps around the verbatim matches. -/
def escapeDiscordMarkdown (s : List Char) : List Char :=
  match findAllFrom s 0 with
  | [] => discordMarkdownEscaper s
  | ms => spliceEscapes s ms 0

/-- Embedding of `discordMarkdownUnscaper`: the pattern backslash-dot replaced by
`$1`.  Go's `.` matches any character except newline, so a backslash directly
before a newline is left in place and scanning continues after the newline. -/
def discordMarkdownUnscaper : List Char → List Char
  | '\\' :: c :: rest =>
      if c = '\n' then '\\' :: c :: discordMarkdownUnscaper rest
      else c :: discordMarkdownUnscaper rest
  | c :: rest => c :: discordMarkdownUnscaper rest
  | [] => []

/-- Embedding of `MonospaceConverter`: un-escape the span with `discordMarkdownUnscaper`,
then wrap in double backticks, padding with a space on a side whose
outermost character is itself a backtick. -/
def MonospaceConverter (s : List Char) : List Char :=
  let u := discordMarkdownUnscaper s
  let pre := if u.head? = some '`' then ofStr " " else ofStr ""
  let suf := if u.getLast? = some '`' then ofStr " " else ofStr ""
  ofStr "``" ++ pre ++ u ++ suf ++ ofStr "``"

/-- Whether a list begins with a match of `escapeFixer`'s pattern: a
backslash, a doubled underscore followed by a non-underscore, or a doubled
asterisk followed by a non-asterisk. -/
def startsFixMatch : List Char → Bool
  | b :: d :: d' :: x :: _ =>
      b == '\\' && ((d == '_' && d' == '_' && !(x == '_')) ||
                    (d == '*' && d' == '*' && !(x == '*')))
  | _ => false

/-- Embedding of `escapeFixer.ReplaceAllStringFunc` with the function returning
`s[:2] + backslash + s[2:]` on each four-character match: scan left to
right, rewrite each leftmost match and resume after it, otherwise copy one
character and move on. -/
def escapeFixer : List Char → List Char
  | b :: d :: d' :: x :: rest =>
      if startsFixMatch (b :: d :: d' :: x :: rest) then
        (List.take 2 [b, d, d', x] ++ ofStr "\\" ++ List.drop 2 [b, d, d', x])
          ++ escapeFixer rest
      else b :: escapeFixer (d :: d' :: x :: rest)
  | c :: rest => c :: escapeFixer rest
  | [] => []

/-- A Matrix portal key: the Discord channel id plus the receiver. -/
structure PortalKey where
  ChannelID : List Char
  Receiver : List Char

/-- The fields of a portal used by `pillConverter`. -/
structure Portal where
  Key : PortalKey
  GuildID : List Char

/-- The fields of a stored message used by `pillConverter`:
`DiscordProtoChannelID` abstracts the accessor of the same name. -/
structure Message where
  DiscordProtoChannelID : List Char
  DiscordID : List Char

/-- The fields of a bridge user used by `pillConverter`. -/
structure User where
  DiscordID : List Char

/-- The read-only directory lookups `pillConverter` delegates to the
surrounding bridge; each returns `none` for a failed or missing lookup. -/
structure Bridge where
  resolveAlias : List Char → Option (List Char)
  getPortalByMXID : List Char → Option Portal
  getMessageByMXID : PortalKey → List Char → Option Message
  parsePuppetMXID : List Char → Option (List Char)
  getUserByMXID : List Char → Option User

/-- First character of a Matrix identifier, if any. -/
def strHead : List Char → Option Char
  | [] => none
  | c :: _ => some c

/-- Embedding of `pillConverter`: resolve a Matrix mention to the Discord literal form.
An empty `mxid` yields the display name; a room alias is resolved first
(returning the display name on failure); a room id is turned into a channel
mention or, with an event id, a message permalink whose guild segment falls
back to the `@me` placeholder; a user id is resolved through the puppet
registry and then the user directory; every failing path yields the
display name. -/
def pillConverter (env : Bridge) (displayname mxid eventID : List Char) : List Char :=
  match mxid with
  | [] => displayname
  | _ :: _ =>
    match (if strHead mxid = some '#' then env.resolveAlias mxid else some mxid) with
    | none => displayname
    | some m =>
      if strHead m = some '!' then
        match env.getPortalByMXID m with
        | some portal =>
          if eventID = [] then ofStr "<#" ++ portal.Key.ChannelID ++ ofStr ">"
          else
            match env.getMessageByMXID portal.Key eventID with
            | some msg =>
                ofStr "https://discord.com/channels/"
                  ++ (if portal.GuildID = [] then ofStr "@me" else portal.GuildID)
                  ++ ofStr "/" ++ msg.DiscordProtoChannelID
                  ++ ofStr "/" ++ msg.DiscordID
            | none => displayname
        | none => displayname
      else if strHead m = some '@' then
        match env.parsePuppetMXID m with
        | some parsedID => ofStr "<@" ++ parsedID ++ ofStr ">"
        | none =>
          match env.getUserByMXID m with
          | some mentionedUser =>
              if mentionedUser.DiscordID ≠ [] then
                ofStr "<@" ++ mentionedUser.DiscordID ++ ofStr ">"
              else displayname
          | none => displayname
      else displayname

/-- The value of `event.FormatHTML`. -/
def formatHTML : List Char := ofStr "org.matrix.custom.html"

/-- The fields of a message content record used by `parseMatrixHTML`. -/
structure MessageEventContent where
  Format : List Char
  FormattedBody : List Char
  Body : List Char

/-- Embedding of `parseMatrixHTML`: with an HTML format flag and a non-empty formatted
body, hand the formatted body to the (externally supplied) HTML parser;
otherwise escape the plain body. -/
def parseMatrixHTML (parseHTML : List Char → List Char)
    (content : MessageEventContent) : List Char :=
  if content.Format = formatHTML ∧ 0 < content.FormattedBody.length then
    parseHTML content.FormattedBody
  else
    escapeDiscordMarkdown content.Body

/-- A bridge environment whose every lookup fails. -/
def env5 : Bridge :=
  { resolveAlias := fun _ => none
    getPortalByMXID := fun _ => none
    getMessageByMXID := fun _ _ => none
    parsePuppetMXID := fun _ => none
    getUserByMXID := fun _ => none }

/-- A bridge environment resolving one guild-less portal and one message. -/
def env6 : Bridge :=
  { resolveAlias := fun _ => none
    getPortalByMXID := fun _ => some { Key := { ChannelID := ofStr "222", Receiver := [] }, GuildID := [] }
    getMessageByMXID := fun _ _ => some { DiscordProtoChannelID := ofStr "222", DiscordID := ofStr "333" }
    parsePuppetMXID := fun _ => none
    getUserByMXID := fun _ => none }

/- Specification-side definitions, written from the spec's / claims'
wording, to be compared with the embedded code above. -/

/-- Single-pass reading of the escaping contract: at each position, a span
matched by the link-detection rule is copied verbatim and scanning resumes
after it; any other character is escaped (escape tokens gain a backslash,
the rest pass through).  Fuelled like `findAllFromF`. -/
def escapeSpecF : Nat → List Char → List Char
  | 0, _ => []
  | _ + 1, [] => []
  | fuel + 1, c :: rest =>
    match schemeLen (c :: rest) with
    | some sl =>
      match matchLen (List.drop sl (c :: rest)) with
      | some ml =>
          List.take (sl + ml) (c :: rest) ++ escapeSpecF fuel (List.drop (sl + ml - 1) rest)
      | none => escapeChar c ++ escapeSpecF fuel rest
    | none => escapeChar c ++ escapeSpecF fuel rest

/-- The single-pass escaping specification at full fuel. -/
def escapeSpec (l : List Char) : List Char :=
  escapeSpecF l.length l

/-- The amended reading of the ambiguity-repair rule: at each leftmost
occurrence of backslash, doubled delimiter, non-delimiter-matching
character, the guard backslash is inserted between the two delimiters. -/
def fixerSpec : List Char → List Char
  | b :: d :: d' :: x :: rest =>
      if b = '\\' ∧ ((d = '_' ∧ d' = '_' ∧ x ≠ '_') ∨ (d = '*' ∧ d' = '*' ∧ x ≠ '*')) then
        b :: d :: '\\' :: d' :: x :: fixerSpec rest
      else b :: fixerSpec (d :: d' :: x :: rest)
  | c :: rest => c :: fixerSpec rest
  | [] => []

/-- Generic un-escaping as the spec words it: every backslash-character
pair becomes that character, with no exception for newlines. -/
def unescapeAll : List Char → List Char
  | '\\' :: c :: rest => c :: unescapeAll rest
  | c :: rest => c :: unescapeAll rest
  | [] => []

/-- The scan of `discordMarkdownUnscaper` meets no backslash directly
before a newline (the case its any-character class cannot match). -/
def unscaperOK : List Char → Bool
  | '\\' :: c :: rest => !(c == '\n') && unscaperOK rest
  | _ :: rest => unscaperOK rest
  | [] => true

/-- The monospace wrapping described by the spec, applied to already
un-escaped content. -/
def wrapMono (u : List Char) : List Char :=
  ofStr "``" ++ (if u.head? = some '`' then ofStr " " else ofStr "")
    ++ u ++ (if u.getLast? = some '`' then ofStr " " else ofStr "")
    ++ ofStr "``"

/-- An underscore or asterisk. -/
def isDelim (c : Char) : Bool := c == '_' || c == '*'

/-- Some suffix of the list begins with a match of `escapeFixer`'s
pattern. -/
def hasOcc : List Char → Bool
  | [] => false
  | c :: rest => startsFixMatch (c :: rest) || hasOcc rest

/-- A match of `escapeFixer`'s pattern whose trailing character is itself a
backslash opening a second match: backslash, doubled delimiter, backslash,
doubled delimiter, character not matching the second delimiter. -/
def startsBad : List Char → Bool
  | b :: d :: d' :: x :: e :: e' :: y :: _ =>
      b == '\\' && ((d == '_' && d' == '_') || (d == '*' && d' == '*')) &&
      x == '\\' && ((e == '_' && e' == '_' && !(y == '_')) ||
                    (e == '*' && e' == '*' && !(y == '*')))
  | _ => false

/-- Some suffix of the list begins with the overlapping double pattern. -/
def hasBad : List Char → Bool
  | [] => false
  | c :: rest => startsBad (c :: rest) || hasBad rest

/- Helper lemmas about the link scanner. -/

theorem findAllFromF_congr : ∀ (n m : Nat) (l : List Char) (i : Nat),
    l.length ≤ n → l.length ≤ m → findAllFromF n l i = findAllFromF m l i := by
  intro n
  induction n with
  | zero =>
    intro m l i hn _
    have hl : l = [] := List.eq_nil_of_length_eq_zero (Nat.le_zero.mp hn)
    subst hl
    cases m <;> rfl
  | succ n ih =>
    intro m l i hn hm
    cases l with
    | nil => cases m <;> rfl
    | cons c rest =>
      cases m with
      | zero => simp at hm
      | succ m' =>
        simp only [List.length_cons] at hn hm
        have h1 : rest.length ≤ n := by omega
        have h2 : rest.length ≤ m' := by omega
        cases hs : schemeLen (c :: rest) with
        | none => simp only [findAllFromF, hs]; exact ih m' rest (i + 1) h1 h2
        | some sl =>
          cases hml : matchLen (List.drop sl (c :: rest)) with
          | none => simp only [findAllFromF, hs, hml]; exact ih m' rest (i + 1) h1 h2
          | some ml =>
            have hdl : (List.drop (sl + ml - 1) rest).length ≤ rest.length := by
              simp [List.length_drop]
            simp only [findAllFromF, hs, hml]
            exact congrArg _ (ih m' _ (i + sl + ml) (le_trans hdl h1) (le_trans hdl h2))

theorem findAllFrom_nil (i : Nat) : findAllFrom [] i = [] := rfl

theorem findAllFrom_cons_none {c : Char} {rest : List Char} (i : Nat)
    (hs : schemeLen (c :: rest) = none) :
    findAllFrom (c :: rest) i = findAllFrom rest (i + 1) := by
  show findAllFromF (rest.length + 1) (c :: rest) i = _
  simp only [findAllFromF, hs]
  rfl

theorem findAllFrom_cons_noml {c : Char} {rest : List Char} {sl : Nat} (i : Nat)
    (hs : schemeLen (c :: rest) = some sl)
    (hml : matchLen (List.drop sl (c :: rest)) = none) :
    findAllFrom (c :: rest) i = findAllFrom rest (i + 1) := by
  show findAllFromF (rest.length + 1) (c :: rest) i = _
  simp only [findAllFromF, hs, hml]
  rfl

theorem findAllFrom_cons_match {c : Char} {rest : List Char} {sl ml : Nat} (i : Nat)
    (hs : schemeLen (c :: rest) = some sl)
    (hml : matchLen (List.drop sl (c :: rest)) = some ml) :
    findAllFrom (c :: rest) i =
      (i, i + sl + ml) :: findAllFrom (List.drop (sl + ml - 1) rest) (i + sl + ml) := by
  show findAllFromF (rest.length + 1) (c :: rest) i = _
  simp only [findAllFromF, hs, hml]
  have hdl : (List.drop (sl + ml - 1) rest).length ≤ rest.length := by
    simp [List.length_drop]
  exact congrArg _ (findAllFromF_congr rest.length _ _ (i + sl + ml) hdl le_rfl)

theorem escapeSpecF_congr : ∀ (n m : Nat) (l : List Char),
    l.length ≤ n → l.length ≤ m → escapeSpecF n l = escapeSpecF m l := by
  intro n
  induction n with
  | zero =>
    intro m l hn _
    have hl : l = [] := List.eq_nil_of_length_eq_zero (Nat.le_zero.mp hn)
    subst hl
    cases m <;> rfl
  | succ n ih =>
    intro m l hn hm
    cases l with
    | nil => cases m <;> rfl
    | cons c rest =>
      cases m with
      | zero => simp at hm
      | succ m' =>
        simp only [List.length_cons] at hn hm
        have h1 : rest.length ≤ n := by omega
        have h2 : rest.length ≤ m' := by omega
        cases hs : schemeLen (c :: rest) with
        | none => simp only [escapeSpecF, hs]; exact congrArg _ (ih m' rest h1 h2)
        | some sl =>
          cases hml : matchLen (List.drop sl (c :: rest)) with
          | none => simp only [escapeSpecF, hs, hml]; exact congrArg _ (ih m' rest h1 h2)
          | some ml =>
            have hdl : (List.drop (sl + ml - 1) rest).length ≤ rest.length := by
              simp [List.length_drop]
            simp only [escapeSpecF, hs, hml]
            exact congrArg _ (ih m' _ (le_trans hdl h1) (le_trans hdl h2))

theorem escapeSpec_nil : escapeSpec [] = [] := rfl

theorem escapeSpec_cons_none {c : Char} {rest : List Char}
    (hs : schemeLen (c :: rest) = none) :
    escapeSpec (c :: rest) = escapeChar c ++ escapeSpec rest := by
  show escapeSpecF (rest.length + 1) (c :: rest) = _
  simp only [escapeSpecF, hs]
  rfl

theorem escapeSpec_cons_noml {c : Char} {rest : List Char} {sl : Nat}
    (hs : schemeLen (c :: rest) = some sl)
    (hml : matchLen (List.drop sl (c :: rest)) = none) :
    escapeSpec (c :: rest) = escapeChar c ++ escapeSpec rest := by
  show escapeSpecF (rest.length + 1) (c :: rest) = _
  simp only [escapeSpecF, hs, hml]
  rfl

theorem escapeSpec_cons_match {c : Char} {rest : List Char} {sl ml : Nat}
    (hs : schemeLen (c :: rest) = some sl)
    (hml : matchLen (List.drop sl (c :: rest)) = some ml) :
    escapeSpec (c :: rest) =
      List.take (sl + ml) (c :: rest) ++ escapeSpec (List.drop (sl + ml - 1) rest) := by
  show escapeSpecF (rest.length + 1) (c :: rest) = _
  simp only [escapeSpecF, hs, hml]
  have hdl : (List.drop (sl + ml - 1) rest).length ≤ rest.length := by
    simp [List.length_drop]
  exact congrArg _ (escapeSpecF_congr rest.length _ _ hdl le_rfl)

theorem findSome?_finalStep_pos : ∀ (L : List Nat) (l : List Char) (m : Nat),
    (L.findSome? fun n =>
      match l[n]? with
      | some c => if isFinalChar c then some (n + 1) else none
      | none => none) = some m → 1 ≤ m := by
  intro L
  induction L with
  | nil => intro l m h; simp at h
  | cons a L ih =>
    intro l m h
    rw [List.findSome?_cons] at h
    cases hg : l[a]? with
    | none => simp only [hg] at h; exact ih l m h
    | some c =>
      by_cases hf : isFinalChar c = true
      · simp [hg, hf] at h
        omega
      · simp [hg, hf] at h
        exact ih l m h

theorem matchLen_pos {l : List Char} {m : Nat} (h : matchLen l = some m) : 1 ≤ m :=
  findSome?_finalStep_pos _ _ _ h

theorem findAllFromF_ge : ∀ (n : Nat) (l : List Char) (i : Nat) (p : Nat × Nat),
    p ∈ findAllFromF n l i → i ≤ p.1 := by
  intro n
  induction n with
  | zero => intro l i p h; simp [findAllFromF] at h
  | succ n ih =>
    intro l i p h
    cases l with
    | nil => simp [findAllFromF] at h
    | cons c rest =>
      cases hs : schemeLen (c :: rest) with
      | none =>
        simp only [findAllFromF, hs] at h
        exact le_trans (Nat.le_succ i) (ih rest (i + 1) p h)
      | some sl =>
        cases hml : matchLen (List.drop sl (c :: rest)) with
        | none =>
          simp only [findAllFromF, hs, hml] at h
          exact le_trans (Nat.le_succ i) (ih rest (i + 1) p h)
        | some ml =>
          simp only [findAllFromF, hs, hml] at h
          rcases List.mem_cons.mp h with h | h
          · subst h; exact le_rfl
          · have := ih _ _ p h; omega

theorem findAllFrom_ge {l : List Char} {i : Nat} {p : Nat × Nat}
    (h : p ∈ findAllFrom l i) : i ≤ p.1 :=
  findAllFromF_ge _ _ _ _ h

/- The splice loop agrees with the single-pass specification. -/

theorem drop_succ_of_drop_cons {s rest : List Char} {c : Char} {i : Nat}
    (h : List.drop i s = c :: rest) : List.drop (i + 1) s = rest := by
  have h1 : List.drop 1 (List.drop i s) = rest := by rw [h]; rfl
  rwa [List.drop_drop] at h1

theorem escaper_cons (c : Char) (l : List Char) :
    discordMarkdownEscaper (c :: l) = escapeChar c ++ discordMarkdownEscaper l := by
  simp [discordMarkdownEscaper]

theorem splice_step {s : List Char} {ms : List (Nat × Nat)} {i : Nat} {c : Char}
    {rest : List Char} (hdrop : List.drop i s = c :: rest)
    (hge : ∀ p ∈ ms, i + 1 ≤ p.1) :
    spliceEscapes s ms i = escapeChar c ++ spliceEscapes s ms (i + 1) := by
  have hrest : List.drop (i + 1) s = rest := drop_succ_of_drop_cons hdrop
  cases ms with
  | nil =>
    simp only [spliceEscapes]
    rw [hdrop, hrest, escaper_cons]
  | cons p ms =>
    obtain ⟨st, en⟩ := p
    have hst : i + 1 ≤ st := hge (st, en) (List.mem_cons_self _ _)
    simp only [spliceEscapes]
    rw [hdrop, hrest]
    have h1 : st - i = (st - (i + 1)) + 1 := by omega
    rw [h1, List.take_succ_cons, escaper_cons]
    simp [List.append_assoc]

theorem spliceFind : ∀ (n : Nat) (s l : List Char) (i : Nat),
    l.length ≤ n → List.drop i s = l →
    spliceEscapes s (findAllFrom l i) i = escapeSpec l := by
  intro n
  induction n with
  | zero =>
    intro s l i hn hd
    have hl : l = [] := List.eq_nil_of_length_eq_zero (Nat.le_zero.mp hn)
    subst hl
    rw [findAllFrom_nil, escapeSpec_nil]
    simp only [spliceEscapes]
    rw [hd]
    rfl
  | succ n ih =>
    intro s l i hn hd
    cases l with
    | nil =>
      rw [findAllFrom_nil, escapeSpec_nil]
      simp only [spliceEscapes]
      rw [hd]
      rfl
    | cons c rest =>
      simp only [List.length_cons] at hn
      have hrest : List.drop (i + 1) s = rest := drop_succ_of_drop_cons hd
      cases hs : schemeLen (c :: rest) with
      | none =>
        rw [findAllFrom_cons_none i hs, escapeSpec_cons_none hs]
        rw [splice_step hd (fun p hp => findAllFrom_ge hp)]
        rw [ih s rest (i + 1) (by omega) hrest]
      | some sl =>
        cases hml : matchLen (List.drop sl (c :: rest)) with
        | none =>
          rw [findAllFrom_cons_noml i hs hml, escapeSpec_cons_noml hs hml]
          rw [splice_step hd (fun p hp => findAllFrom_ge hp)]
          rw [ih s rest (i + 1) (by omega) hrest]
        | some ml =>
          have hml1 : 1 ≤ ml := matchLen_pos hml
          rw [findAllFrom_cons_match i hs hml, escapeSpec_cons_match hs hml]
          simp only [spliceEscapes]
          have hd2 : List.drop (i + sl + ml) s = List.drop (sl + ml - 1) rest := by
            have h4 : List.drop (sl + ml) (List.drop i s) = List.drop (sl + ml - 1) rest := by
              rw [hd]
              conv_lhs => rw [show sl + ml = (sl + ml - 1) + 1 from by omega]
              rw [List.drop_succ_cons]
            rw [List.drop_drop] at h4
            have h5 : i + sl + ml = sl + ml + i := by omega
            rw [h5]
            have h6 : i + (sl + ml) = sl + ml + i := by omega
            rw [h6] at h4
            exact h4
          have hlen : (List.drop (sl + ml - 1) rest).length ≤ n := by
            have := List.length_drop (sl + ml - 1) rest
            omega
          rw [ih s _ (i + sl + ml) hlen hd2]
          have e1 : i - i = 0 := by omega
          have e2 : i + sl + ml - i = sl + ml := by omega
          rw [e1, e2, hd]
          simp [discordMarkdownEscaper]

theorem escapeDiscordMarkdown_eq_spec (s : List Char) :
    escapeDiscordMarkdown s = escapeSpec s := by
  have h := spliceFind s.length s s 0 le_rfl (by simp)
  unfold escapeDiscordMarkdown
  cases hf : findAllFrom s 0 with
  | nil =>
    rw [hf] at h
    simp only [spliceEscapes, List.drop_zero] at h
    exact h
  | cons p ms =>
    rw [hf] at h
    exact h

/- Escaping on token-only and token-free strings. -/

theorem schemeLen_cons_token {c : Char} {rest : List Char}
    (h : isEscapeToken c = true) : schemeLen (c :: rest) = none := by
  have hc : c ≠ 'h' := by
    intro he
    subst he
    exact absurd h (by decide)
  have h8 : List.take 8 (c :: rest) = c :: List.take 7 rest := rfl
  have h7 : List.take 7 (c :: rest) = c :: List.take 6 rest := rfl
  have hs : ofStr "https://" = 'h' :: ofStr "ttps://" := rfl
  have ht : ofStr "http://" = 'h' :: ofStr "ttp://" := rfl
  unfold schemeLen
  rw [if_neg, if_neg]
  · intro he
    rw [h7, ht] at he
    injection he with he1 _
    exact hc he1
  · intro he
    rw [h8, hs] at he
    injection he with he1 _
    exact hc he1

theorem escapeSpec_all_tokens : ∀ (n : Nat) (l : List Char), l.length ≤ n →
    (∀ c ∈ l, isEscapeToken c = true) → escapeSpec l = discordMarkdownEscaper l := by
  intro n
  induction n with
  | zero =>
    intro l hn _
    have hl : l = [] := List.eq_nil_of_length_eq_zero (Nat.le_zero.mp hn)
    subst hl
    rfl
  | succ n ih =>
    intro l hn hall
    cases l with
    | nil => rfl
    | cons c rest =>
      simp only [List.length_cons] at hn
      have hc : isEscapeToken c = true := hall c (List.mem_cons_self _ _)
      rw [escapeSpec_cons_none (schemeLen_cons_token hc), escaper_cons]
      rw [ih rest (by omega) (fun c' hc' => hall c' (List.mem_cons_of_mem _ hc'))]

theorem unscape_escaper : ∀ (l : List Char), (∀ c ∈ l, isEscapeToken c = true) →
    discordMarkdownUnscaper (discordMarkdownEscaper l) = l := by
  intro l
  induction l with
  | nil => intro _; rfl
  | cons c rest ih =>
    intro hall
    have hc : isEscapeToken c = true := hall c (List.mem_cons_self _ _)
    have hcn : ¬ (c = '\n') := by
      intro he
      subst he
      exact absurd hc (by decide)
    rw [escaper_cons]
    rw [show escapeChar c = ['\\', c] from by simp [escapeChar, hc]]
    show discordMarkdownUnscaper ('\\' :: c :: discordMarkdownEscaper rest) = c :: rest
    simp only [discordMarkdownUnscaper]
    rw [if_neg hcn]
    rw [ih (fun c' hc' => hall c' (List.mem_cons_of_mem _ hc'))]

theorem escapeSpec_id_of_no_tokens : ∀ (n : Nat) (l : List Char), l.length ≤ n →
    (∀ c ∈ l, isEscapeToken c = false) → escapeSpec l = l := by
  intro n
  induction n with
  | zero =>
    intro l hn _
    have hl : l = [] := List.eq_nil_of_length_eq_zero (Nat.le_zero.mp hn)
    subst hl
    rfl
  | succ n ih =>
    intro l hn hall
    cases l with
    | nil => rfl
    | cons c rest =>
      simp only [List.length_cons] at hn
      have hc : isEscapeToken c = false := hall c (List.mem_cons_self _ _)
      have hec : escapeChar c = [c] := by simp [escapeChar, hc]
      have htail : ∀ c' ∈ rest, isEscapeToken c' = false :=
        fun c' hc' => hall c' (List.mem_cons_of_mem _ hc')
      cases hs : schemeLen (c :: rest) with
      | none =>
        rw [escapeSpec_cons_none hs, hec, ih rest (by omega) htail]
        rfl
      | some sl =>
        cases hml : matchLen (List.drop sl (c :: rest)) with
        | none =>
          rw [escapeSpec_cons_noml hs hml, hec, ih rest (by omega) htail]
          rfl
        | some ml =>
          have hml1 : 1 ≤ ml := matchLen_pos hml
          rw [escapeSpec_cons_match hs hml]
          have hdl : ∀ c' ∈ List.drop (sl + ml - 1) rest, isEscapeToken c' = false :=
            fun c' hc' => htail c' (List.drop_subset _ _ hc')
          have hlen : (List.drop (sl + ml - 1) rest).length ≤ n := by
            have := List.length_drop (sl + ml - 1) rest
            omega
          rw [ih _ hlen hdl]
          have hdd : List.drop (sl + ml) (c :: rest) = List.drop (sl + ml - 1) rest := by
            conv_lhs => rw [show sl + ml = (sl + ml - 1) + 1 from by omega]
            rw [List.drop_succ_cons]
          rw [← hdd, List.take_append_drop]

/-- Claim C3: `escapeDiscordMarkdown` equals the single-pass specification:
every character outside a span matched by the link-detection rule is escaped
(a backslash is inserted before each escape token, all other characters are
kept), and every matched span is copied byte-identically. -/
theorem claimC3 : ∀ s : List Char, escapeDiscordMarkdown s = escapeSpec s :=
  escapeDiscordMarkdown_eq_spec

/-- Claim C1: on strings made only of escape-token characters (such strings
contain no URL), un-escaping the escaped form returns the original. -/
theorem claimC1 : ∀ s : List Char, s.all isEscapeToken = true →
    discordMarkdownUnscaper (escapeDiscordMarkdown s) = s := by
  intro s hall
  have h1 : ∀ c ∈ s, isEscapeToken c = true := by
    simpa [List.all_eq_true] using hall
  rw [escapeDiscordMarkdown_eq_spec, escapeSpec_all_tokens s.length s le_rfl h1]
  exact unscape_escaper s h1

theorem claimC1_witness :
    ((ofStr "\\__**~~``||<<").all isEscapeToken = true) ∧
    discordMarkdownUnscaper (escapeDiscordMarkdown (ofStr "\\__**~~``||<<")) =
      ofStr "\\__**~~``||<<" :=
  ⟨by decide, claimC1 _ (by decide)⟩

/-- Claim C10: `escapeDiscordMarkdown` is the identity on strings with no
escape-token character, whether or not they contain URL spans. -/
theorem claimC10 : ∀ s : List Char, (s.all fun c => !(isEscapeToken c)) = true →
    escapeDiscordMarkdown s = s := by
  intro s hall
  have h1 : ∀ c ∈ s, isEscapeToken c = false := by
    intro c hc
    have := List.all_eq_true.mp hall c hc
    simpa using this
  rw [escapeDiscordMarkdown_eq_spec]
  exact escapeSpec_id_of_no_tokens s.length s le_rfl h1

theorem claimC10_witness :
    (((ofStr "see http://ab cd.").all fun c => !(isEscapeToken c)) = true) ∧
    escapeDiscordMarkdown (ofStr "see http://ab cd.") = ofStr "see http://ab cd." :=
  ⟨by decide, claimC10 _ (by decide)⟩

/-- Claim C2 (divergence of the compiled regex from its own comment): the
link regex matches `http://a`, a span with a single character after the
scheme, and matches `http://a<`, a span ending in an angle bracket, while
the code comment requires at least two characters and no angle bracket
anywhere; the trailing-punctuation exclusion behaves as documented. -/
theorem claimC2_eval :
    findAllFrom (ofStr "http://a") 0 = [(0, 8)] ∧
    findAllFrom (ofStr "http://a<") 0 = [(0, 9)] ∧
    findAllFrom (ofStr "see http://example.com/a.") 0 = [(4, 24)] :=
  ⟨by decide, by decide, by decide⟩

/- The ambiguity-repair pass. -/

theorem startsFixMatch_iff {b d d' x : Char} {t : List Char} :
    startsFixMatch (b :: d :: d' :: x :: t) = true ↔
      b = '\\' ∧ ((d = '_' ∧ d' = '_' ∧ x ≠ '_') ∨ (d = '*' ∧ d' = '*' ∧ x ≠ '*')) := by
  simp [startsFixMatch, and_assoc]

theorem startsFixMatch_elim {l : List Char} (h : startsFixMatch l = true) :
    ∃ d x t, l = '\\' :: d :: d :: x :: t ∧ isDelim d = true ∧ x ≠ d := by
  rcases l with _ | ⟨b, _ | ⟨d, _ | ⟨d', _ | ⟨x, t⟩⟩⟩⟩
  · exact absurd h (by decide)
  · rw [show startsFixMatch [b] = false from rfl] at h
    exact Bool.noConfusion h
  · rw [show startsFixMatch [b, d] = false from rfl] at h
    exact Bool.noConfusion h
  · rw [show startsFixMatch [b, d, d'] = false from rfl] at h
    exact Bool.noConfusion h
  · rcases startsFixMatch_iff.mp h with ⟨rfl, ⟨rfl, rfl, hx⟩ | ⟨rfl, rfl, hx⟩⟩
    · exact ⟨'_', x, t, rfl, rfl, hx⟩
    · exact ⟨'*', x, t, rfl, rfl, hx⟩

theorem isDelim_elim {d : Char} (h : isDelim d = true) : d = '_' ∨ d = '*' := by
  simpa [isDelim] using h

theorem isDelim_ne_bs {d : Char} (h : isDelim d = true) : d ≠ '\\' := by
  rcases isDelim_elim h with rfl | rfl <;> decide

theorem startsFixMatch_intro {d x : Char} (t : List Char)
    (hd : isDelim d = true) (hx : x ≠ d) :
    startsFixMatch ('\\' :: d :: d :: x :: t) = true := by
  rcases isDelim_elim hd with rfl | rfl
  · exact startsFixMatch_iff.mpr ⟨rfl, Or.inl ⟨rfl, rfl, hx⟩⟩
  · exact startsFixMatch_iff.mpr ⟨rfl, Or.inr ⟨rfl, rfl, hx⟩⟩

theorem escapeFixer_match {d x : Char} {rest : List Char}
    (hd : isDelim d = true) (hx : x ≠ d) :
    escapeFixer ('\\' :: d :: d :: x :: rest) =
      '\\' :: d :: '\\' :: d :: x :: escapeFixer rest := by
  have h := startsFixMatch_intro rest hd hx
  have hb : ofStr "\\" = ['\\'] := rfl
  simp [escapeFixer, h, hb, List.take, List.drop]

theorem escapeFixer_head? : ∀ l : List Char, (escapeFixer l).head? = l.head? := by
  intro l
  rcases l with _ | ⟨b, _ | ⟨d, _ | ⟨d', _ | ⟨x, rest⟩⟩⟩⟩
  · rfl
  · rfl
  · rfl
  · rfl
  · by_cases h : startsFixMatch (b :: d :: d' :: x :: rest) = true
    · obtain ⟨d0, x0, t0, heq, hd0, hx0⟩ := startsFixMatch_elim h
      injection heq with h1 _
      subst h1
      simp [escapeFixer, h, List.take]
    · rw [Bool.not_eq_true] at h
      simp [escapeFixer, h]

theorem escapeFixer_cons_ne_bs {c : Char} (rest : List Char) (hc : c ≠ '\\') :
    escapeFixer (c :: rest) = c :: escapeFixer rest := by
  rcases rest with _ | ⟨d, _ | ⟨d', _ | ⟨x, t⟩⟩⟩
  · rfl
  · rfl
  · rfl
  · have h : startsFixMatch (c :: d :: d' :: x :: t) = false := by
      have hb : (c == '\\') = false := beq_eq_false_iff_ne.mpr hc
      simp [startsFixMatch, hb]
    simp [escapeFixer, h]

theorem escapeFixer_prefix3 : ∀ (s : List Char) {e e' y : Char} {t : List Char},
    isDelim e = true → isDelim e' = true →
    escapeFixer s = e :: e' :: y :: t → ∃ t', s = e :: e' :: y :: t' := by
  intro s e e' y t he he' hfix
  cases s with
  | nil => exact absurd hfix (by simp [escapeFixer])
  | cons c s1 =>
    have hc : c = e := by
      have h := escapeFixer_head? (c :: s1)
      rw [hfix] at h
      simpa using h.symm
    subst hc
    rw [escapeFixer_cons_ne_bs s1 (isDelim_ne_bs he)] at hfix
    injection hfix with _ hfix1
    cases s1 with
    | nil => exact absurd hfix1 (by simp [escapeFixer])
    | cons c2 s2 =>
      have hc2 : c2 = e' := by
        have h := escapeFixer_head? (c2 :: s2)
        rw [hfix1] at h
        simpa using h.symm
      subst hc2
      rw [escapeFixer_cons_ne_bs s2 (isDelim_ne_bs he')] at hfix1
      injection hfix1 with _ hfix2
      cases s2 with
      | nil => exact absurd hfix2 (by simp [escapeFixer])
      | cons c3 s3 =>
        have hc3 : c3 = y := by
          have h := escapeFixer_head? (c3 :: s3)
          rw [hfix2] at h
          simpa using h.symm
        subst hc3
        exact ⟨s3, rfl⟩

theorem startsBad_intro {d e y : Char} (t : List Char)
    (hd : isDelim d = true) (he : isDelim e = true) (hy : y ≠ e) :
    startsBad ('\\' :: d :: d :: '\\' :: e :: e :: y :: t) = true := by
  have hyb : (y == e) = false := beq_eq_false_iff_ne.mpr hy
  rcases isDelim_elim hd with rfl | rfl <;> rcases isDelim_elim he with rfl | rfl <;>
    simp_all [startsBad]

theorem hasBad_tail {a : Char} {l : List Char} (h : hasBad (a :: l) = false) :
    hasBad l = false := by
  have h2 : startsBad (a :: l) = false ∧ hasBad l = false := by simpa [hasBad] using h
  exact h2.2

theorem escapeFixer_id_of_noOcc : ∀ (n : Nat) (l : List Char), l.length ≤ n →
    hasOcc l = false → escapeFixer l = l := by
  intro n
  induction n with
  | zero =>
    intro l hn _
    have hl : l = [] := List.eq_nil_of_length_eq_zero (Nat.le_zero.mp hn)
    subst hl
    rfl
  | succ n ih =>
    intro l hn hocc
    cases l with
    | nil => rfl
    | cons c rest =>
      simp only [List.length_cons] at hn
      have h1 : startsFixMatch (c :: rest) = false ∧ hasOcc rest = false := by
        simpa [hasOcc] using hocc
      rcases rest with _ | ⟨d, _ | ⟨d', _ | ⟨x, t⟩⟩⟩
      · rfl
      · rfl
      · rfl
      · show escapeFixer (c :: d :: d' :: x :: t) = _
        rw [show escapeFixer (c :: d :: d' :: x :: t) =
              (if startsFixMatch (c :: d :: d' :: x :: t) = true then
                (List.take 2 [c, d, d', x] ++ ofStr "\\" ++ List.drop 2 [c, d, d', x])
                  ++ escapeFixer t
              else c :: escapeFixer (d :: d' :: x :: t)) from rfl]
        rw [h1.1]
        simp only [Bool.false_eq_true, if_false]
        rw [ih (d :: d' :: x :: t) (by simp only [List.length_cons] at hn ⊢; omega) h1.2]

theorem noOcc_escapeFixer : ∀ (n : Nat) (l : List Char), l.length ≤ n →
    hasBad l = false → hasOcc (escapeFixer l) = false := by
  intro n
  induction n with
  | zero =>
    intro l hn _
    have hl : l = [] := List.eq_nil_of_length_eq_zero (Nat.le_zero.mp hn)
    subst hl
    rfl
  | succ n ih =>
    intro l hn hb
    cases l with
    | nil => rfl
    | cons c rest =>
      simp only [List.length_cons] at hn
      have hbad : startsBad (c :: rest) = false ∧ hasBad rest = false := by
        simpa [hasBad] using hb
      by_cases hm : startsFixMatch (c :: rest) = true
      · obtain ⟨d, x, t, hl, hd, hx⟩ := startsFixMatch_elim hm
        injection hl with hl1 hl2
        subst hl1
        subst hl2
        rw [escapeFixer_match hd hx]
        have hde : d ≠ '\\' := isDelim_ne_bs hd
        have hdb : (d == '\\') = false := beq_eq_false_iff_ne.mpr hde
        have hbsu : (('\\' : Char) == '_') = false := rfl
        have hbsa : (('\\' : Char) == '*') = false := rfl
        simp only [hasOcc, Bool.or_eq_false_iff]
        refine ⟨?_, ?_, ?_, ?_, ?_, ?_⟩
        · simp [startsFixMatch, hbsu, hbsa]
        · simp [startsFixMatch, hdb]
        · rw [Bool.eq_false_iff]
          intro hq
          obtain ⟨e, y0, t0, heq, he, hy⟩ := startsFixMatch_elim hq
          injection heq with he1 heq
          injection heq with he2 heq
          injection heq with he3 _
          exact hx (he3.trans he2.symm)
        · rw [Bool.eq_false_iff]
          intro hq
          obtain ⟨e, y0, t0, heq, he, hy⟩ := startsFixMatch_elim hq
          injection heq with he1 _
          exact hde he1
        · rw [Bool.eq_false_iff]
          intro hq
          obtain ⟨e, y0, t0, heq, he, hy⟩ := startsFixMatch_elim hq
          injection heq with he1 heq
          subst he1
          obtain ⟨t', ht'⟩ := escapeFixer_prefix3 t he he heq
          subst ht'
          have hsb := startsBad_intro t' hd he hy
          rw [hbad.1] at hsb
          exact absurd hsb (by decide)
        · have ht : hasBad t = false :=
            hasBad_tail (hasBad_tail (hasBad_tail hbad.2))
          exact ih t (by simp only [List.length_cons] at hn; omega) ht
      · rw [Bool.not_eq_true] at hm
        rcases rest with _ | ⟨d, _ | ⟨d', _ | ⟨x, t⟩⟩⟩
        · rfl
        · rfl
        · rfl
        · show hasOcc (escapeFixer (c :: d :: d' :: x :: t)) = false
          rw [show escapeFixer (c :: d :: d' :: x :: t) =
                (if startsFixMatch (c :: d :: d' :: x :: t) = true then
                  (List.take 2 [c, d, d', x] ++ ofStr "\\" ++ List.drop 2 [c, d, d', x])
                    ++ escapeFixer t
                else c :: escapeFixer (d :: d' :: x :: t)) from rfl]
          rw [hm]
          simp only [Bool.false_eq_true, if_false]
          have htail : hasOcc (escapeFixer (d :: d' :: x :: t)) = false :=
            ih (d :: d' :: x :: t) (by simp only [List.length_cons] at hn ⊢; omega)
              hbad.2
          rw [show hasOcc (c :: escapeFixer (d :: d' :: x :: t)) =
                (startsFixMatch (c :: escapeFixer (d :: d' :: x :: t)) ||
                  hasOcc (escapeFixer (d :: d' :: x :: t))) from rfl]
          rw [htail, Bool.or_false, Bool.eq_false_iff]
          intro hq
          obtain ⟨e, y0, t0, heq, he, hy⟩ := startsFixMatch_elim hq
          injection heq with he1 heq
          subst he1
          obtain ⟨t', ht'⟩ := escapeFixer_prefix3 _ he he heq
          rw [ht'] at hm
          have hin := startsFixMatch_intro t' he hy
          rw [hm] at hin
          exact absurd hin (by decide)

theorem escapeFixer_cons4_nomatch {b d d' x : Char} {t : List Char}
    (h : startsFixMatch (b :: d :: d' :: x :: t) = false) :
    escapeFixer (b :: d :: d' :: x :: t) = b :: escapeFixer (d :: d' :: x :: t) := by
  rw [show escapeFixer (b :: d :: d' :: x :: t) =
        (if startsFixMatch (b :: d :: d' :: x :: t) = true then
          (List.take 2 [b, d, d', x] ++ ofStr "\\" ++ List.drop 2 [b, d, d', x])
            ++ escapeFixer t
        else b :: escapeFixer (d :: d' :: x :: t)) from rfl]
  rw [h]
  simp only [Bool.false_eq_true, if_false]

theorem fixerSpec_match {d x : Char} (rest : List Char)
    (hd : isDelim d = true) (hx : x ≠ d) :
    fixerSpec ('\\' :: d :: d :: x :: rest) =
      '\\' :: d :: '\\' :: d :: x :: fixerSpec rest := by
  rcases isDelim_elim hd with rfl | rfl
  · exact if_pos ⟨rfl, Or.inl ⟨rfl, rfl, hx⟩⟩
  · exact if_pos ⟨rfl, Or.inr ⟨rfl, rfl, hx⟩⟩

theorem fixerSpec_cons4_nomatch {b d d' x : Char} {rest : List Char}
    (h : ¬(b = '\\' ∧ ((d = '_' ∧ d' = '_' ∧ x ≠ '_') ∨ (d = '*' ∧ d' = '*' ∧ x ≠ '*')))) :
    fixerSpec (b :: d :: d' :: x :: rest) = b :: fixerSpec (d :: d' :: x :: rest) :=
  if_neg h

theorem escapeFixer_eq_fixerSpec : ∀ (n : Nat) (l : List Char), l.length ≤ n →
    escapeFixer l = fixerSpec l := by
  intro n
  induction n with
  | zero =>
    intro l hn
    have hl : l = [] := List.eq_nil_of_length_eq_zero (Nat.le_zero.mp hn)
    subst hl
    rfl
  | succ n ih =>
    intro l hn
    rcases l with _ | ⟨b, _ | ⟨d, _ | ⟨d', _ | ⟨x, t⟩⟩⟩⟩
    · rfl
    · rfl
    · rfl
    · rfl
    · by_cases hcond : b = '\\' ∧
          ((d = '_' ∧ d' = '_' ∧ x ≠ '_') ∨ (d = '*' ∧ d' = '*' ∧ x ≠ '*'))
      · have hm : startsFixMatch (b :: d :: d' :: x :: t) = true :=
          startsFixMatch_iff.mpr hcond
        obtain ⟨d0, x0, t0, heq, hd0, hx0⟩ := startsFixMatch_elim hm
        injection heq with h1 heq
        injection heq with h2 heq
        injection heq with h3 heq
        injection heq with h4 h5
        subst h1
        subst h2
        subst h3
        subst h4
        subst h5
        rw [escapeFixer_match hd0 hx0, fixerSpec_match t hd0 hx0,
            ih t (by simp only [List.length_cons] at hn; omega)]
      · have hm : startsFixMatch (b :: d :: d' :: x :: t) = false :=
          Bool.eq_false_iff.mpr (fun h => hcond (startsFixMatch_iff.mp h))
        rw [escapeFixer_cons4_nomatch hm, fixerSpec_cons4_nomatch hcond,
            ih (d :: d' :: x :: t) (by simp only [List.length_cons] at hn ⊢; omega)]

/-- Claim C4 (amended): the ambiguity-repair pass rewrites each leftmost
occurrence of backslash, doubled delimiter, character differing from that
delimiter by inserting the guard backslash between the two delimiters
(after the escaped first delimiter, before the second), and changes
nothing outside the matched occurrences. -/
theorem claimC4 : ∀ s : List Char, escapeFixer s = fixerSpec s :=
  fun s => escapeFixer_eq_fixerSpec s.length s le_rfl

/-- Counterexample to claim C4 as stated: on the input backslash,
underscore, underscore, letter a, the fixer produces backslash, underscore,
backslash, underscore, a — the inserted backslash sits between the two
delimiters, not after the pair as the claim says — and the pattern also
fires when the fourth character is the other delimiter kind (asterisk after
a doubled underscore), which the claim's non-delimiter reading excludes. -/
theorem claimC4_counterexample :
    escapeFixer (ofStr "\\__a") = ofStr "\\_\\_a" ∧
    ofStr "\\_\\_a" ≠ ofStr "\\__\\a" ∧
    escapeFixer (ofStr "\\__*") = ofStr "\\_\\_*" ∧
    ofStr "\\_\\_*" ≠ ofStr "\\__*" :=
  ⟨by decide, by decide, by decide, by decide⟩

/-- Claim C9 (amended): the ambiguity-repair pass is idempotent on every
input containing no overlapping double occurrence (no match whose trailing
character is a backslash starting a second match); on such inputs the
rewritten text contains no remaining occurrence of the pattern. -/
theorem claimC9 : ∀ s : List Char, hasBad s = false →
    escapeFixer (escapeFixer s) = escapeFixer s :=
  fun s h => escapeFixer_id_of_noOcc (escapeFixer s).length _ le_rfl
    (noOcc_escapeFixer s.length s le_rfl h)

/-- Counterexample to claim C9 as stated: on backslash, doubled underscore,
backslash, doubled underscore, letter a, a second application of the fixer
changes the output again. -/
theorem claimC9_counterexample :
    escapeFixer (escapeFixer (ofStr "\\__\\__a")) ≠ escapeFixer (ofStr "\\__\\__a") := by
  decide

theorem claimC9_witness :
    (hasBad (ofStr "\\__a") = false) ∧
    escapeFixer (escapeFixer (ofStr "\\__a")) = escapeFixer (ofStr "\\__a") :=
  ⟨by decide, claimC9 _ (by decide)⟩

/- The monospace converter. -/

theorem unscaper_cons_ne {c : Char} (rest : List Char) (hc : c ≠ '\\') :
    discordMarkdownUnscaper (c :: rest) = c :: discordMarkdownUnscaper rest := by
  rw [discordMarkdownUnscaper.eq_def]
  split
  · rename_i c2 rest2 heq
    injection heq with h1 _
    exact absurd h1 hc
  · rename_i c2 rest2 heq
    injection heq with h1 h2
    rw [h1, h2]
  · rename_i heq
    exact absurd heq (by simp)

theorem unescapeAll_cons_ne {c : Char} (rest : List Char) (hc : c ≠ '\\') :
    unescapeAll (c :: rest) = c :: unescapeAll rest := by
  rw [unescapeAll.eq_def]
  split
  · rename_i c2 rest2 heq
    injection heq with h1 _
    exact absurd h1 hc
  · rename_i c2 rest2 heq
    injection heq with h1 h2
    rw [h1, h2]
  · rename_i heq
    exact absurd heq (by simp)

theorem unscaperOK_cons_ne {c : Char} (rest : List Char) (hc : c ≠ '\\') :
    unscaperOK (c :: rest) = unscaperOK rest := by
  rw [unscaperOK.eq_def]
  split
  · rename_i c2 rest2 heq
    injection heq with h1 _
    exact absurd h1 hc
  · rename_i c2 rest2 heq
    injection heq with h1 h2
    rw [h2]
  · rename_i heq
    exact absurd heq (by simp)

theorem unscaper_eq_unescapeAll : ∀ (n : Nat) (l : List Char), l.length ≤ n →
    unscaperOK l = true → discordMarkdownUnscaper l = unescapeAll l := by
  intro n
  induction n with
  | zero =>
    intro l hn _
    have hl : l = [] := List.eq_nil_of_length_eq_zero (Nat.le_zero.mp hn)
    subst hl
    rfl
  | succ n ih =>
    intro l hn hok
    cases l with
    | nil => rfl
    | cons c rest =>
      simp only [List.length_cons] at hn
      by_cases hc : c = '\\'
      · subst hc
        cases rest with
        | nil => rfl
        | cons c2 rest2 =>
          have h2 : (!(c2 == '\n') && unscaperOK rest2) = true := hok
          have hc2 : ¬ (c2 = '\n') := by
            intro he
            subst he
            simp at h2
          have hok2 : unscaperOK rest2 = true := by
            simp only [Bool.and_eq_true] at h2
            exact h2.2
          show (if c2 = '\n' then '\\' :: c2 :: discordMarkdownUnscaper rest2
                else c2 :: discordMarkdownUnscaper rest2) = c2 :: unescapeAll rest2
          rw [if_neg hc2]
          rw [ih rest2 (by simp only [List.length_cons] at hn; omega) hok2]
      · rw [unscaper_cons_ne rest hc, unescapeAll_cons_ne rest hc]
        rw [unscaperOK_cons_ne rest hc] at hok
        rw [ih rest (by omega) hok]

/-- Claim C7 (amended): the monospace converter first removes every escape
sequence, each backslash-X becoming X — except that a backslash directly
before a newline is kept, since the un-escaper's any-character class does
not match newlines — then wraps the result in double backticks with a
padding space on a side whose outermost character is a backtick.  On spans
whose scan meets no backslash-newline pair, the converter therefore equals
the spec's wrap of the fully un-escaped content. -/
theorem claimC7 : ∀ s : List Char, unscaperOK s = true →
    MonospaceConverter s = wrapMono (unescapeAll s) := by
  intro s h
  simp only [MonospaceConverter, wrapMono]
  rw [unscaper_eq_unescapeAll s.length s le_rfl h]

/-- Counterexample to claim C7 as stated: a span consisting of backslash,
newline is left un-touched by the converter's un-escape step, so the claim's
predicted wrap of the newline alone differs from the code's output. -/
theorem claimC7_counterexample :
    MonospaceConverter (ofStr "\\\n") = ofStr "``\\\n``" ∧
    ofStr "``\\\n``" ≠ ofStr "``\n``" :=
  ⟨by decide, by decide⟩

theorem claimC7_witness :
    (unscaperOK (ofStr "\\`x\\`") = true) ∧
    MonospaceConverter (ofStr "\\`x\\`") = wrapMono (unescapeAll (ofStr "\\`x\\`")) ∧
    wrapMono (unescapeAll (ofStr "\\`x\\`")) = ofStr "`` `x` ``" :=
  ⟨by decide, claimC7 _ (by decide), by decide⟩

/- The pill converter. -/

/-- Claim C5: the pill converter is total and never yields an error value:
an empty reference returns the display name, a room alias whose directory
resolution fails returns the display name, and in general the result is
the display name, a channel mention, a user mention, or a permalink. -/
theorem claimC5 : ∀ (env : Bridge) (d m e : List Char),
    (m = [] → pillConverter env d m e = d) ∧
    (strHead m = some '#' → env.resolveAlias m = none → pillConverter env d m e = d) ∧
    (pillConverter env d m e = d ∨
      (∃ cid, pillConverter env d m e = ofStr "<#" ++ cid ++ ofStr ">") ∨
      (∃ uid, pillConverter env d m e = ofStr "<@" ++ uid ++ ofStr ">") ∨
      (∃ g ch mi, pillConverter env d m e =
        ofStr "https://discord.com/channels/" ++ g ++ ofStr "/" ++ ch
          ++ ofStr "/" ++ mi)) := by
  intro env d m e
  refine ⟨?_, ?_, ?_⟩
  · intro h
    subst h
    rfl
  · intro hh hra
    cases m with
    | nil => rfl
    | cons c mrest =>
      have hc : c = '#' := by simpa [strHead] using hh
      subst hc
      simp [pillConverter, hh, hra]
  · cases m with
    | nil => exact Or.inl rfl
    | cons c mrest =>
      cases hA : (if strHead (c :: mrest) = some '#' then env.resolveAlias (c :: mrest)
                  else some (c :: mrest)) with
      | none =>
        refine Or.inl ?_
        simp [pillConverter, hA]
      | some mm =>
        by_cases h1 : strHead mm = some '!'
        · cases hP : env.getPortalByMXID mm with
          | none =>
            refine Or.inl ?_
            simp [pillConverter, hA, h1, hP]
          | some portal =>
            by_cases hE : e = []
            · refine Or.inr (Or.inl ⟨portal.Key.ChannelID, ?_⟩)
              simp [pillConverter, hA, h1, hP, hE]
            · cases hM : env.getMessageByMXID portal.Key e with
              | none =>
                refine Or.inl ?_
                simp [pillConverter, hA, h1, hP, hE, hM]
              | some msg =>
                refine Or.inr (Or.inr (Or.inr
                  ⟨(if portal.GuildID = [] then ofStr "@me" else portal.GuildID),
                   msg.DiscordProtoChannelID, msg.DiscordID, ?_⟩))
                simp [pillConverter, hA, h1, hP, hE, hM]
        · by_cases h2 : strHead mm = some '@'
          · cases hPp : env.parsePuppetMXID mm with
            | some pid =>
              refine Or.inr (Or.inr (Or.inl ⟨pid, ?_⟩))
              simp [pillConverter, hA, h1, h2, hPp]
            | none =>
              cases hU : env.getUserByMXID mm with
              | none =>
                refine Or.inl ?_
                simp [pillConverter, hA, h1, h2, hPp, hU]
              | some u =>
                by_cases hD : u.DiscordID = []
                · refine Or.inl ?_
                  simp [pillConverter, hA, h1, h2, hPp, hU, hD]
                · refine Or.inr (Or.inr (Or.inl ⟨u.DiscordID, ?_⟩))
                  simp [pillConverter, hA, h1, h2, hPp, hU, hD]
          · refine Or.inl ?_
            simp [pillConverter, hA, h1, h2]

theorem claimC5_witness :
    pillConverter env5 (ofStr "dn") [] [] = ofStr "dn" ∧
    pillConverter env5 (ofStr "dn") (ofStr "#room:x") [] = ofStr "dn" :=
  ⟨(claimC5 env5 (ofStr "dn") [] []).1 rfl,
   (claimC5 env5 (ofStr "dn") (ofStr "#room:x") []).2.1 rfl rfl⟩

/-- Claim C6: a room-id reference with a message context that resolves to a
portal and a stored message yields the permalink built from the guild id,
the native channel id and the native message id, with the `@me` placeholder
substituted when the portal's channel belongs to no guild. -/
theorem claimC6 : ∀ (env : Bridge) (d m e : List Char) (portal : Portal) (msg : Message),
    strHead m = some '!' →
    env.getPortalByMXID m = some portal →
    e ≠ [] →
    env.getMessageByMXID portal.Key e = some msg →
    pillConverter env d m e =
      ofStr "https://discord.com/channels/"
        ++ (if portal.GuildID = [] then ofStr "@me" else portal.GuildID)
        ++ ofStr "/" ++ msg.DiscordProtoChannelID
        ++ ofStr "/" ++ msg.DiscordID := by
  intro env d m e portal msg hm hp he hmsg
  cases m with
  | nil => exact absurd hm (by simp [strHead])
  | cons c mrest =>
    have hc : c = '!' := by simpa [strHead] using hm
    subst hc
    have hx2 : ¬ (strHead ('!' :: mrest) = some '#') := by
      intro hcon
      rw [show strHead ('!' :: mrest) = some '!' from rfl] at hcon
      injection hcon with hcc
      exact absurd hcc (by decide)
    simp [pillConverter, hx2, hm, hp, he, hmsg]

theorem claimC6_witness :
    pillConverter env6 (ofStr "msg") (ofStr "!r:x") (ofStr "$ev") =
      ofStr "https://discord.com/channels/@me/222/333" := by
  have h := claimC6 env6 (ofStr "msg") (ofStr "!r:x") (ofStr "$ev")
      { Key := { ChannelID := ofStr "222", Receiver := [] }, GuildID := [] }
      { DiscordProtoChannelID := ofStr "222", DiscordID := ofStr "333" }
      rfl rfl (by decide) rfl
  rw [h]
  decide

/- The Matrix HTML entry point. -/

/-- Claim C8: with no HTML formatted body (either the format flag is not
HTML or the formatted body is empty) the entry point returns exactly the
escaped plain body; the HTML-parsing path runs only when an HTML-formatted
body is present. -/
theorem claimC8 : ∀ (parseHTML : List Char → List Char) (content : MessageEventContent),
    ((content.Format ≠ formatHTML ∨ content.FormattedBody = []) →
      parseMatrixHTML parseHTML content = escapeDiscordMarkdown content.Body) ∧
    (content.Format = formatHTML → content.FormattedBody ≠ [] →
      parseMatrixHTML parseHTML content = parseHTML content.FormattedBody) := by
  intro p content
  constructor
  · intro h
    unfold parseMatrixHTML
    rw [if_neg]
    intro hc
    rcases h with h | h
    · exact h hc.1
    · rw [h] at hc
      exact absurd hc.2 (by simp)
  · intro h1 h2
    unfold parseMatrixHTML
    rw [if_pos ⟨h1, List.length_pos.mpr h2⟩]

theorem claimC8_witness :
    parseMatrixHTML (fun x => x)
        { Format := [], FormattedBody := [], Body := ofStr "a*b" } =
      escapeDiscordMarkdown (ofStr "a*b") ∧
    escapeDiscordMarkdown (ofStr "a*b") = ofStr "a\\*b" :=
  ⟨(claimC8 (fun x => x) _).1 (Or.inr rfl), by decide⟩
